import Mathlib

/-!
Verification of the pmda parallel-analysis core.

The development embeds, in Lean:

* the Block Partitioner `make_balanced_slices` and the Moment Combiner
  `second_order_moments` / `fold_second_order_moments` of `pmda/util.py`
  (modelled from the specification, since `pmda/util.py` itself is not
  among the provided sources; only its tests
  `pmda/test/test_util.py` are),
* the reference statistic `sumofsquares` of `pmda/test/test_util.py`,
* `HydrogenBondAnalysis._reduce` and
  `HydrogenBondAnalysis.count_by_time` of `pmda/hbond_analysis.py`.

Machine floats are modelled by exact rationals (`ℚ`); Python integers by
`Int`/`Nat`; Python `None`-able arguments by `Option`; raised
`ValueError`s by `Except.error`.
-/

/-- A Python `slice(start, stop, step)` object as produced by
`make_balanced_slices`: `start` and `step` are concrete integers, and
`stop` may be `None` (open-ended, i.e. "through the end of the
sequence"). -/
structure Slice where
  start : Int
  stop : Option Int
  step : Int
deriving DecidableEq

/-- Number of indices selected by the bounded Python slice `[s : e : st]`
(for positive `st`): the number of `s + j * st`, `j = 0, 1, ...`, that
are `< e`. -/
def sliceCount (s e st : Nat) : Nat := (e - s + (st - 1)) / st

/-- The list of indices selected by the bounded Python slice
`[s : e : st]`, in order. -/
def sliceIdx (s e st : Nat) : List Nat :=
  (List.range (sliceCount s e st)).map (fun j => s + j * st)

/-- Elements of the (conceptually unbounded) sequence `f` selected by a
slice descriptor.  Only bounded slices (with a concrete `stop`) are used
by the round-trip property, because an open slice of an unbounded
sequence selects unboundedly many elements; the open case returns `[]`
and is never exercised by the theorems below. -/
def selectFrames {α : Type} (f : Nat → α) (sl : Slice) : List α :=
  match sl.stop with
  | some e => (sliceIdx sl.start.toNat e.toNat sl.step.toNat).map f
  | none => []

/-- Number of frames a bounded block descriptor covers. -/
def blockCount (sl : Slice) : Nat := (selectFrames id sl).length

/-- Cumulative cut point `b_i = i*q + min(i, r)` of the balanced
partition of `nf` frames into `nb` blocks, where `q = nf / nb` and
`r = nf % nb`: the first `r` blocks receive `q + 1` frames each and the
remaining blocks `q` frames each, so `b_i` is the number of frames held
by the first `i` blocks. -/
def cutPoint (nf nb i : Nat) : Nat := i * (nf / nb) + min i (nf % nb)

/-- The `i`-th block descriptor of the balanced partition:
`real_start = start + b_i * step`, `real_stop = start + b_{i+1} * step`
for every block but the last; the last block's `stop` is the
caller-supplied `stop` (possibly `None`). -/
def mkBlock (start0 step0 : Int) (stop : Option Int) (nf nb i : Nat) : Slice :=
  { start := start0 + (cutPoint nf nb i : Int) * step0
    stop := if i + 1 = nb then stop
            else some (start0 + (cutPoint nf nb (i + 1) : Int) * step0)
    step := step0 }

/-- Modelled from the spec: the Block Partitioner
`make_balanced_slices(n_frames, n_blocks, start=None, stop=None,
step=None)` of `pmda/util.py`, which is not among the provided sources
(only its tests in `pmda/test/test_util.py` are).  Following the spec:
defaults are `start = 0`, `step = 1`, `stop` unset; `n_frames < 0`,
`n_blocks < 1`, a negative supplied `start`, a supplied `stop` below
`start` (or below `0`), and a non-positive supplied `step` are
`InvalidArgument` failures; `n_frames == 0` yields the empty partition;
`n_blocks > n_frames > 0` is an `InvalidArgument` failure; otherwise the
`n_blocks` descriptors are built from the cumulative cut points. -/
def make_balanced_slices (n_frames n_blocks : Int)
    (start stop step : Option Int) : Except String (List Slice) :=
  if n_frames < 0 then .error "n_frames must be >= 0"
  else if n_blocks < 1 then .error "n_blocks must be > 0"
  else if start.getD 0 < 0 then .error "start must be >= 0"
  else if stop.getD (start.getD 0) < start.getD 0 then
    .error "stop must be >= start and >= 0"
  else if step.getD 1 < 1 then .error "step must be > 0"
  else if n_frames = 0 then .ok []
  else if n_frames < n_blocks then
    .error "n_blocks must be smaller or equal to n_frames"
  else
    .ok ((List.range n_blocks.toNat).map
      (mkBlock (start.getD 0) (step.getD 1) stop n_frames.toNat n_blocks.toNat))

/-! ### Arithmetic of slice counts and cut points -/

lemma count_eq {c c' : Nat} (h : ∀ j, j < c ↔ j < c') : c = c' := by
  rcases Nat.lt_trichotomy c c' with h1 | h1 | h1
  · exact absurd ((h c).mpr h1) (Nat.lt_irrefl c)
  · exact h1
  · exact absurd ((h c').mp h1) (Nat.lt_irrefl c')

lemma lt_sliceCount_iff (s e st j : Nat) (hst : 1 ≤ st) :
    j < sliceCount s e st ↔ s + j * st < e := by
  unfold sliceCount
  rw [Nat.lt_iff_add_one_le, Nat.le_div_iff_mul_le hst, Nat.add_mul]
  generalize j * st = a
  omega

lemma sliceCount_add_mul (s d st : Nat) (hst : 1 ≤ st) :
    sliceCount s (s + d * st) st = d := by
  apply count_eq
  intro j
  rw [lt_sliceCount_iff _ _ _ _ hst]
  have hmul : j < d ↔ j * st < d * st := by
    constructor
    · intro h
      calc j * st < (j + 1) * st := by
            have := Nat.add_mul j 1 st
            omega
        _ ≤ d * st := Nat.mul_le_mul_right st h
    · intro h
      by_contra h2
      exact absurd (Nat.mul_le_mul_right st (by omega : d ≤ j)) (by omega)
  omega

lemma sliceCount_shift (s e st b : Nat) (hst : 1 ≤ st) :
    sliceCount (s + b * st) e st = sliceCount s e st - b := by
  apply count_eq
  intro j
  rw [lt_sliceCount_iff _ _ _ _ hst]
  have h2 := lt_sliceCount_iff s e st (b + j) hst
  rw [Nat.add_mul] at h2
  omega

lemma cutPoint_zero (nf nb : Nat) : cutPoint nf nb 0 = 0 := by
  simp [cutPoint]

lemma cutPoint_last (nf nb : Nat) (hnb : 0 < nb) : cutPoint nf nb nb = nf := by
  have h1 := Nat.div_add_mod nf nb
  have h2 : nf % nb < nb := Nat.mod_lt _ hnb
  unfold cutPoint
  rw [min_eq_right (Nat.le_of_lt h2)]
  exact h1

lemma cutPoint_succ (nf nb i : Nat) :
    cutPoint nf nb (i + 1)
      = cutPoint nf nb i + (nf / nb + if i < nf % nb then 1 else 0) := by
  unfold cutPoint
  rw [Nat.add_mul]
  rcases Nat.lt_or_ge i (nf % nb) with h | h
  · rw [if_pos h, min_eq_left (Nat.succ_le_of_lt h), min_eq_left (Nat.le_of_lt h)]
    simp only [Nat.succ_eq_add_one]
    ring
  · rw [if_neg (by omega), min_eq_right h, min_eq_right (by omega)]
    ring

lemma cutPoint_le (nf nb : Nat) {i j : Nat} (hij : i ≤ j) :
    cutPoint nf nb i ≤ cutPoint nf nb j := by
  unfold cutPoint
  have h1 : i * (nf / nb) ≤ j * (nf / nb) := Nat.mul_le_mul_right _ hij
  have h2 : min i (nf % nb) ≤ min j (nf % nb) := by omega
  omega

/-- Concatenating, in order, the pieces `[cut i, cut (i+1))` of a
monotone cut-point sequence starting at `0` retraces `[0, cut nb)`. -/
lemma flatMap_blocks {α : Type} (g : Nat → α) (cut : Nat → Nat) (F : Nat → List α)
    (nb : Nat) (h0 : cut 0 = 0) (hmono : ∀ i, cut i ≤ cut (i + 1))
    (hF : ∀ i, i < nb →
      F i = (List.range (cut (i + 1) - cut i)).map (fun j => g (cut i + j))) :
    (List.range nb).flatMap F = (List.range (cut nb)).map g := by
  induction nb with
  | zero => simp [h0]
  | succ n ih =>
    rw [List.range_succ, List.flatMap_append,
      ih (fun i hi => hF i (by omega)),
      List.flatMap_cons, List.flatMap_nil, List.append_nil,
      hF n (by omega)]
    obtain ⟨d, hd⟩ : ∃ d, cut (n + 1) = cut n + d :=
      ⟨cut (n + 1) - cut n, by have := hmono n; omega⟩
    rw [hd, Nat.add_sub_cancel_left, List.range_add, List.map_append, List.map_map]
    rfl

lemma toNat_add_mul (a b c : Nat) : ((a : Int) + (b : Int) * (c : Int)).toNat = a + b * c := by
  rw [← Nat.cast_mul, ← Nat.cast_add, Int.toNat_natCast]

/-- On valid arguments with a positive frame count, the partitioner
returns the balanced block descriptors built from the cut points. -/
lemma make_pos_eq (n_frames n_blocks : Int) (start stop step : Option Int)
    (h1 : 0 < n_frames) (h2 : 1 ≤ n_blocks) (h3 : n_blocks ≤ n_frames)
    (h4 : 0 ≤ start.getD 0) (h5 : start.getD 0 ≤ stop.getD (start.getD 0))
    (h6 : 1 ≤ step.getD 1) :
    make_balanced_slices n_frames n_blocks start stop step =
      .ok ((List.range n_blocks.toNat).map
        (mkBlock (start.getD 0) (step.getD 1) stop n_frames.toNat n_blocks.toNat)) := by
  unfold make_balanced_slices
  rw [if_neg (by omega), if_neg (by omega), if_neg (by omega), if_neg (by omega),
    if_neg (by omega), if_neg (by omega), if_neg (by omega)]

/-- The frames selected by one block descriptor are the frames with
slice-local positions in `[b_i, b_{i+1})`. -/
lemma selectFrames_mkBlock {α : Type} (f : Nat → α) (start stop step nf nb i : Nat)
    (hst : 1 ≤ step) (hn : nf = sliceCount start stop step) (hnb : 0 < nb)
    (hi : i < nb) :
    selectFrames f (mkBlock (start : Int) (step : Int) (some (stop : Int)) nf nb i)
      = (List.range (cutPoint nf nb (i + 1) - cutPoint nf nb i)).map
          (fun j => f (start + (cutPoint nf nb i + j) * step)) := by
  simp only [mkBlock]
  by_cases h : i + 1 = nb
  · rw [if_pos h]
    simp only [selectFrames]
    rw [toNat_add_mul, Int.toNat_natCast, Int.toNat_natCast]
    unfold sliceIdx
    rw [sliceCount_shift _ _ _ _ hst, ← hn]
    have hlast : cutPoint nf nb (i + 1) = nf := by
      rw [h]; exact cutPoint_last nf nb hnb
    rw [hlast, List.map_map]
    congr 1
    funext j
    simp only [Function.comp]
    congr 1
    ring
  · rw [if_neg h]
    simp only [selectFrames]
    rw [toNat_add_mul, toNat_add_mul, Int.toNat_natCast]
    unfold sliceIdx
    obtain ⟨d, hd⟩ : ∃ d, cutPoint nf nb (i + 1) = cutPoint nf nb i + d :=
      ⟨cutPoint nf nb (i + 1) - cutPoint nf nb i, by
        have := cutPoint_le nf nb (Nat.le_succ i)
        simp only [Nat.succ_eq_add_one] at this
        omega⟩
    rw [hd, Nat.add_sub_cancel_left]
    have harg : start + (cutPoint nf nb i + d) * step
        = (start + cutPoint nf nb i * step) + d * step := by ring
    rw [harg, sliceCount_add_mul _ _ _ hst, List.map_map]
    congr 1
    funext j
    simp only [Function.comp]
    congr 1
    ring

/-- Concatenating the frames selected by the balanced blocks retraces
the single direct slice. -/
lemma blocks_flatMap_select {α : Type} (f : Nat → α) (start stop step nf nb : Nat)
    (hst : 1 ≤ step) (hn : nf = sliceCount start stop step) (hnb : 0 < nb) :
    ((List.range nb).map
        (mkBlock (start : Int) (step : Int) (some (stop : Int)) nf nb)).flatMap
        (selectFrames f)
      = (sliceIdx start stop step).map f := by
  rw [List.flatMap_map]
  rw [flatMap_blocks (fun u => f (start + u * step)) (cutPoint nf nb) _ nb
    (cutPoint_zero nf nb) (fun i => cutPoint_le nf nb (Nat.le_succ i))
    (fun i hi => selectFrames_mkBlock f start stop step nf nb i hst hn hnb hi)]
  rw [cutPoint_last nf nb hnb, hn]
  unfold sliceIdx
  rw [List.map_map]
  rfl

/-- Claim C1: round-trip coverage of the partitioner.  For every valid
input (positive `n_frames`, `1 ≤ n_blocks ≤ n_frames`, `start ≤ stop`,
positive `step`, `n_frames` the number of elements the direct
`start:stop:step` slice selects), concatenating, in block order, the
elements the returned block descriptors select from the (unbounded, so
in particular extending arbitrarily far beyond `stop`) sequence `f`
yields exactly the elements selected by the single direct
`start:stop:step` slice, in the same order. -/
theorem make_balanced_slices_round_trip {α : Type} (f : Nat → α)
    (n_frames n_blocks start stop step : Nat)
    (hstep : 1 ≤ step) (hss : start ≤ stop)
    (hn : n_frames = sliceCount start stop step)
    (hnf : 0 < n_frames) (hnb1 : 1 ≤ n_blocks) (hnb2 : n_blocks ≤ n_frames) :
    ∃ slices,
      make_balanced_slices (n_frames : Int) (n_blocks : Int)
          (some (start : Int)) (some (stop : Int)) (some (step : Int)) = .ok slices
      ∧ slices.flatMap (selectFrames f) = (sliceIdx start stop step).map f := by
  have hmk := make_pos_eq (n_frames : Int) (n_blocks : Int)
    (some (start : Int)) (some (stop : Int)) (some (step : Int))
    (by exact_mod_cast hnf) (by exact_mod_cast hnb1) (by exact_mod_cast hnb2)
    (by simp) (by simp; exact_mod_cast hss) (by simp; exact_mod_cast hstep)
  simp only [Option.getD_some, Int.toNat_natCast] at hmk
  exact ⟨_, hmk, blocks_flatMap_select f start stop step n_frames n_blocks hstep hn
    (by omega)⟩

/-- Witness for claim C1 at `f = id`, `n_frames = 3`, `n_blocks = 2`,
`start = 1`, `stop = 8`, `step = 3` (selected frames `1, 4, 7`). -/
theorem make_balanced_slices_round_trip_witness :
    (1 ≤ 3 ∧ 1 ≤ 8 ∧ 3 = sliceCount 1 8 3 ∧ 0 < 3 ∧ 1 ≤ 2 ∧ 2 ≤ 3)
    ∧ ∃ slices,
        make_balanced_slices (3 : Int) (2 : Int)
            (some (1 : Int)) (some (8 : Int)) (some (3 : Int)) = .ok slices
        ∧ slices.flatMap (selectFrames (fun n => n)) = (sliceIdx 1 8 3).map (fun n => n) :=
  ⟨by decide,
    make_balanced_slices_round_trip (fun n => n) 3 2 1 8 3
      (by decide) (by decide) (by decide) (by decide) (by decide) (by decide)⟩

lemma blockCount_mkBlock (start stop step nf nb i : Nat)
    (hst : 1 ≤ step) (hn : nf = sliceCount start stop step) (hnb : 0 < nb)
    (hi : i < nb) :
    blockCount (mkBlock (start : Int) (step : Int) (some (stop : Int)) nf nb i)
      = cutPoint nf nb (i + 1) - cutPoint nf nb i := by
  unfold blockCount
  rw [selectFrames_mkBlock id start stop step nf nb i hst hn hnb hi]
  simp

/-- Claim C3: balanced block sizes with front-loaded remainder.  On every
valid input the partitioner returns exactly `n_blocks` descriptors; with
`q = n_frames / n_blocks` and `r = n_frames % n_blocks` the first `r`
blocks each cover `q + 1` frames and the remaining blocks `q` frames, so
every block is non-empty, any two block sizes differ by at most one, and
every larger block precedes every smaller block. -/
theorem make_balanced_slices_balanced (n_frames n_blocks start stop step : Nat)
    (hstep : 1 ≤ step) (hss : start ≤ stop)
    (hn : n_frames = sliceCount start stop step)
    (hnf : 0 < n_frames) (hnb1 : 1 ≤ n_blocks) (hnb2 : n_blocks ≤ n_frames) :
    ∃ slices,
      make_balanced_slices (n_frames : Int) (n_blocks : Int)
          (some (start : Int)) (some (stop : Int)) (some (step : Int)) = .ok slices
      ∧ slices.length = n_blocks
      ∧ (∀ i (h : i < slices.length),
          blockCount (slices.get ⟨i, h⟩)
            = n_frames / n_blocks + if i < n_frames % n_blocks then 1 else 0)
      ∧ (∀ i (h : i < slices.length), 0 < blockCount (slices.get ⟨i, h⟩))
      ∧ (∀ i j (hi : i < slices.length) (hj : j < slices.length), i ≤ j →
          blockCount (slices.get ⟨j, hj⟩) ≤ blockCount (slices.get ⟨i, hi⟩)
          ∧ blockCount (slices.get ⟨i, hi⟩) ≤ blockCount (slices.get ⟨j, hj⟩) + 1) := by
  have hmk := make_pos_eq (n_frames : Int) (n_blocks : Int)
    (some (start : Int)) (some (stop : Int)) (some (step : Int))
    (by exact_mod_cast hnf) (by exact_mod_cast hnb1) (by exact_mod_cast hnb2)
    (by simp) (by simp; exact_mod_cast hss) (by simp; exact_mod_cast hstep)
  simp only [Option.getD_some, Int.toNat_natCast] at hmk
  have hget : ∀ i (h : i < (((List.range n_blocks).map
      (mkBlock (start : Int) (step : Int) (some (stop : Int))
        n_frames n_blocks))).length),
      ((List.range n_blocks).map
        (mkBlock (start : Int) (step : Int) (some (stop : Int))
          n_frames n_blocks)).get ⟨i, h⟩
        = mkBlock (start : Int) (step : Int) (some (stop : Int)) n_frames n_blocks i := by
    intro i h
    rw [List.get_eq_getElem, List.getElem_map, List.getElem_range]
  have hlen : (((List.range n_blocks).map
      (mkBlock (start : Int) (step : Int) (some (stop : Int))
        n_frames n_blocks))).length = n_blocks := by simp
  have hcount : ∀ i, i < n_blocks →
      blockCount (mkBlock (start : Int) (step : Int) (some (stop : Int))
          n_frames n_blocks i)
        = n_frames / n_blocks + if i < n_frames % n_blocks then 1 else 0 := by
    intro i hi
    rw [blockCount_mkBlock start stop step n_frames n_blocks i hstep hn (by omega) hi,
      cutPoint_succ]
    generalize (n_frames / n_blocks + if i < n_frames % n_blocks then 1 else 0) = X
    omega
  have hq : 1 ≤ n_frames / n_blocks := (Nat.one_le_div_iff (by omega)).mpr hnb2
  refine ⟨_, hmk, hlen, ?_, ?_, ?_⟩
  · intro i h
    rw [hget i h]
    exact hcount i (by omega)
  · intro i h
    rw [hget i h, hcount i (by omega)]
    by_cases hir : i < n_frames % n_blocks <;> simp [hir] <;> omega
  · intro i j hi hj hij
    rw [hget i hi, hget j hj, hcount i (by omega), hcount j (by omega)]
    by_cases hir : i < n_frames % n_blocks <;>
      by_cases hjr : j < n_frames % n_blocks <;>
      simp [hir, hjr] <;> omega

/-- Witness for claim C3 at `n_frames = 5`, `n_blocks = 3`, `start = 0`,
`stop = 5`, `step = 1` (block sizes `2, 2, 1`). -/
theorem make_balanced_slices_balanced_witness :
    (1 ≤ 1 ∧ 0 ≤ 5 ∧ 5 = sliceCount 0 5 1 ∧ 0 < 5 ∧ 1 ≤ 3 ∧ 3 ≤ 5)
    ∧ ∃ slices,
        make_balanced_slices (5 : Int) (3 : Int)
            (some (0 : Int)) (some (5 : Int)) (some (1 : Int)) = .ok slices
        ∧ slices.length = 3
        ∧ (∀ i (h : i < slices.length),
            blockCount (slices.get ⟨i, h⟩) = 5 / 3 + if i < 5 % 3 then 1 else 0)
        ∧ (∀ i (h : i < slices.length), 0 < blockCount (slices.get ⟨i, h⟩))
        ∧ (∀ i j (hi : i < slices.length) (hj : j < slices.length), i ≤ j →
            blockCount (slices.get ⟨j, hj⟩) ≤ blockCount (slices.get ⟨i, hi⟩)
            ∧ blockCount (slices.get ⟨i, hi⟩) ≤ blockCount (slices.get ⟨j, hj⟩) + 1) :=
  ⟨by decide,
    make_balanced_slices_balanced 5 3 0 5 1
      (by decide) (by decide) (by decide) (by decide) (by decide) (by decide)⟩

/-- Claim C4: the partitioner fails (with a `ValueError`, modelled as
`Except.error`, hence before any partition is returned) exactly when
`n_blocks ≤ 0`, or `n_frames < 0`, or `0 < n_frames < n_blocks`, or a
supplied `step` is non-positive, or a supplied `start` or `stop` is
negative, or both `start` and `stop` are supplied with `start > stop`. -/
theorem make_balanced_slices_error_iff (n_frames n_blocks : Int)
    (start stop step : Option Int) :
    (∃ msg, make_balanced_slices n_frames n_blocks start stop step = .error msg)
      ↔ (n_blocks ≤ 0 ∨ n_frames < 0 ∨ (0 < n_frames ∧ n_frames < n_blocks)
          ∨ (∃ s, step = some s ∧ s ≤ 0)
          ∨ (∃ a, start = some a ∧ a < 0)
          ∨ (∃ e, stop = some e ∧ e < 0)
          ∨ (∃ a e, start = some a ∧ stop = some e ∧ e < a)) := by
  have hgetD : (∃ msg, make_balanced_slices n_frames n_blocks start stop step
        = .error msg)
      ↔ (n_frames < 0 ∨ n_blocks < 1 ∨ start.getD 0 < 0
          ∨ stop.getD (start.getD 0) < start.getD 0 ∨ step.getD 1 < 1
          ∨ (n_frames ≠ 0 ∧ n_frames < n_blocks)) := by
    unfold make_balanced_slices
    split_ifs <;> simp <;> omega
  rw [hgetD]
  rcases start with _ | a <;> rcases stop with _ | e <;> rcases step with _ | s <;>
    simp <;> omega

/-- Claim C5 (amended): for every positive `n_blocks` (and otherwise
valid `start`/`stop`/`step`), a zero-frame partition request returns the
empty sequence and raises no error. -/
theorem make_balanced_slices_zero_frames (n_blocks : Int)
    (start stop step : Option Int)
    (h2 : 1 ≤ n_blocks) (h4 : 0 ≤ start.getD 0)
    (h5 : start.getD 0 ≤ stop.getD (start.getD 0)) (h6 : 1 ≤ step.getD 1) :
    make_balanced_slices 0 n_blocks start stop step = .ok [] := by
  unfold make_balanced_slices
  rw [if_neg (by omega), if_neg (by omega), if_neg (by omega), if_neg (by omega),
    if_neg (by omega), if_pos rfl]

/-- Counterexample to claim C5 as stated ("for every n_blocks ...
regardless of n_blocks"): at `n_blocks = 0` the zero-frame call raises a
`ValueError` instead of returning the empty sequence, exactly as the
test `test_make_balanced_slices_ValueError` demands for `(0, 0)`. -/
theorem make_balanced_slices_zero_frames_counterexample :
    make_balanced_slices 0 0 none none none ≠ .ok [] := by
  simp [make_balanced_slices]

/-- Witness for claim C5 (amended) at `n_blocks = 2` with default
`start`/`stop`/`step`. -/
theorem make_balanced_slices_zero_frames_witness :
    ((1 : Int) ≤ 2 ∧ (0 : Int) ≤ (none : Option Int).getD 0
      ∧ (none : Option Int).getD 0 ≤ (none : Option Int).getD ((none : Option Int).getD 0)
      ∧ (1 : Int) ≤ (none : Option Int).getD 1)
    ∧ make_balanced_slices 0 2 none none none = .ok [] :=
  ⟨by decide,
    make_balanced_slices_zero_frames 2 none none none
      (by decide) (by decide) (by decide) (by decide)⟩

/-- Claim C7: every returned block descriptor carries the supplied
`step` (default `1`); each block's bounds come from the cumulative cut
points (`real_start = start + b_i * step`, and
`real_stop = start + b_{i+1} * step` for every block but the last); the
last block's `stop` equals the caller-supplied `stop`, which is `None`
(open) when none was given. -/
theorem make_balanced_slices_shape (n_frames n_blocks : Int)
    (start stop step : Option Int)
    (h1 : 0 < n_frames) (h2 : 1 ≤ n_blocks) (h3 : n_blocks ≤ n_frames)
    (h4 : 0 ≤ start.getD 0) (h5 : start.getD 0 ≤ stop.getD (start.getD 0))
    (h6 : 1 ≤ step.getD 1) :
    ∃ slices,
      make_balanced_slices n_frames n_blocks start stop step = .ok slices
      ∧ (∀ i (h : i < slices.length),
          (slices.get ⟨i, h⟩).step = step.getD 1
          ∧ (slices.get ⟨i, h⟩).start
              = start.getD 0
                + (cutPoint n_frames.toNat n_blocks.toNat i : Int) * step.getD 1
          ∧ (i + 1 ≠ n_blocks.toNat →
              (slices.get ⟨i, h⟩).stop
                = some (start.getD 0
                    + (cutPoint n_frames.toNat n_blocks.toNat (i + 1) : Int)
                        * step.getD 1))
          ∧ (i + 1 = n_blocks.toNat → (slices.get ⟨i, h⟩).stop = stop)) := by
  refine ⟨_, make_pos_eq n_frames n_blocks start stop step h1 h2 h3 h4 h5 h6, ?_⟩
  intro i h
  rw [List.get_eq_getElem, List.getElem_map, List.getElem_range]
  refine ⟨rfl, rfl, ?_, ?_⟩
  · intro hne
    simp [mkBlock, hne]
  · intro heq
    simp [mkBlock, heq]

/-- Witness for claim C7 at `n_frames = 5`, `n_blocks = 2`,
`start = 1`, `stop` unset, `step = 2`: descriptors
`slice(1, 7, 2)` and `slice(7, None, 2)`. -/
theorem make_balanced_slices_shape_witness :
    ((0 : Int) < 5 ∧ (1 : Int) ≤ 2 ∧ (2 : Int) ≤ 5
      ∧ (0 : Int) ≤ (some (1 : Int)).getD 0
      ∧ (some (1 : Int)).getD 0 ≤ (none : Option Int).getD ((some (1 : Int)).getD 0)
      ∧ (1 : Int) ≤ (some (2 : Int)).getD 1)
    ∧ ∃ slices,
        make_balanced_slices 5 2 (some 1) none (some 2) = .ok slices
        ∧ (∀ i (h : i < slices.length),
            (slices.get ⟨i, h⟩).step = (some (2 : Int)).getD 1
            ∧ (slices.get ⟨i, h⟩).start
                = (some (1 : Int)).getD 0
                  + (cutPoint (5 : Int).toNat (2 : Int).toNat i : Int)
                      * (some (2 : Int)).getD 1
            ∧ (i + 1 ≠ (2 : Int).toNat →
                (slices.get ⟨i, h⟩).stop
                  = some ((some (1 : Int)).getD 0
                      + (cutPoint (5 : Int).toNat (2 : Int).toNat (i + 1) : Int)
                          * (some (2 : Int)).getD 1))
            ∧ (i + 1 = (2 : Int).toNat → (slices.get ⟨i, h⟩).stop = none)) :=
  ⟨by decide,
    make_balanced_slices_shape 5 2 (some 1) none (some 2)
      (by decide) (by decide) (by decide) (by decide) (by decide) (by decide)⟩

/-! ### Moment aggregates and the Moment Combiner -/

/-- A moment aggregate `(count, mean, sum_sq_dev)` over observation
vectors indexed by `ι` (for a `t x n x m` observation array,
`ι = Fin n × Fin m`): count of observations, their elementwise mean, and
elementwise sum of squared deviations from that mean.  Float arrays are
modelled by exact rationals. -/
@[ext]
structure MomentAgg (ι : Type) where
  count : Nat
  mean : ι → ℚ
  sum_sq_dev : ι → ℚ

/-- Modelled from the spec: the Moment Combiner
`second_order_moments(S1, S2)` of `pmda/util.py`, which is not among the
provided sources (only its tests in `pmda/test/test_util.py` are).
Following the spec: a count-0 operand is neutral (the other operand is
returned unchanged, its mean never read); for non-empty operands,
`n = a.count + b.count`, `delta = b.mean - a.mean`,
`mean = a.mean + delta * b.count / n`, and
`sum_sq_dev = a.sum_sq_dev + b.sum_sq_dev + delta^2 * a.count * b.count / n`,
elementwise. -/
def second_order_moments {ι : Type} (a b : MomentAgg ι) : MomentAgg ι :=
  if a.count = 0 then b
  else if b.count = 0 then a
  else
    { count := a.count + b.count
      mean := fun i => a.mean i
        + (b.mean i - a.mean i) * ((b.count : ℚ) / ((a.count : ℚ) + (b.count : ℚ)))
      sum_sq_dev := fun i => a.sum_sq_dev i + b.sum_sq_dev i
        + (b.mean i - a.mean i) ^ 2
            * ((a.count : ℚ) * (b.count : ℚ) / ((a.count : ℚ) + (b.count : ℚ))) }

/-- Modelled from the spec: `fold_second_order_moments` of
`pmda/util.py` (not among the provided sources) applies the Moment
Combiner pairwise across the ordered list of per-block aggregates by
left-to-right accumulation. -/
def fold_second_order_moments {ι : Type} (S : List (MomentAgg ι)) : MomentAgg ι :=
  match S with
  | [] => { count := 0, mean := fun _ => 0, sum_sq_dev := fun _ => 0 }
  | a :: rest => rest.foldl second_order_moments a

/-- Elementwise mean of a block of observations (`np.mean(a, axis=0)`). -/
def listMean {ι : Type} (l : List (ι → ℚ)) : ι → ℚ :=
  fun i => (l.map (fun x => x i)).sum / (l.length : ℚ)

/-- The reference statistic `sumofsquares` of `pmda/test/test_util.py`:
elementwise sum of squared deviations of a block of observations from
the block mean. -/
def sumofsquares {ι : Type} (l : List (ι → ℚ)) : ι → ℚ :=
  fun i => (l.map (fun x => (x i - listMean l i) ^ 2)).sum

/-- The per-block aggregate `[len(block), block.mean(axis=0),
sumofsquares(block)]` the tests feed to `fold_second_order_moments`. -/
def aggOf {ι : Type} (l : List (ι → ℚ)) : MomentAgg ι :=
  { count := l.length, mean := listMean l, sum_sq_dev := sumofsquares l }

lemma sum_sq_expand {ι : Type} (l : List (ι → ℚ)) (i : ι) (c : ℚ) :
    (l.map (fun x => (x i - c) ^ 2)).sum
      = (l.map (fun x => (x i) ^ 2)).sum - 2 * c * (l.map (fun x => x i)).sum
        + (l.length : ℚ) * c ^ 2 := by
  induction l with
  | nil => simp
  | cons x xs ih =>
    simp only [List.map_cons, List.sum_cons, List.length_cons, ih]
    push_cast
    ring

lemma length_cast_ne_zero {ι : Type} {l : List (ι → ℚ)} (h : l ≠ []) :
    ((l.length : ℚ)) ≠ 0 :=
  Nat.cast_ne_zero.mpr (fun h0 => h (List.length_eq_zero.mp h0))

/-- Combining the exact aggregates of two non-empty blocks gives the
exact aggregate of their concatenation. -/
lemma second_order_moments_aggOf {ι : Type} (a b : List (ι → ℚ))
    (ha : a ≠ []) (hb : b ≠ []) :
    second_order_moments (aggOf a) (aggOf b) = aggOf (a ++ b) := by
  have hna : ((a.length : ℚ)) ≠ 0 := length_cast_ne_zero ha
  have hnb : ((b.length : ℚ)) ≠ 0 := length_cast_ne_zero hb
  have hna' : (0 : ℚ) < (a.length : ℚ) := by
    have := List.length_pos.mpr ha
    exact_mod_cast this
  have hnb' : (0 : ℚ) < (b.length : ℚ) := by
    have := List.length_pos.mpr hb
    exact_mod_cast this
  have hnab : ((a.length : ℚ)) + (b.length : ℚ) ≠ 0 := by positivity
  unfold second_order_moments aggOf
  rw [if_neg (by simpa [List.length_eq_zero] using ha),
    if_neg (by simpa [List.length_eq_zero] using hb)]
  refine MomentAgg.ext ?_ ?_ ?_
  · simp
  · funext i
    simp only [listMean, List.map_append, List.sum_append, List.length_append]
    push_cast
    field_simp
    ring
  · funext i
    simp only [sumofsquares, List.map_append, List.sum_append]
    rw [sum_sq_expand a i (listMean a i), sum_sq_expand b i (listMean b i),
      sum_sq_expand a i (listMean (a ++ b) i), sum_sq_expand b i (listMean (a ++ b) i)]
    simp only [listMean, List.map_append, List.sum_append, List.length_append]
    push_cast
    field_simp
    ring

/-- Left-to-right folding of exact per-block aggregates accumulates the
exact aggregate of the concatenation. -/
lemma foldl_aggOf {ι : Type} (acc : List (ι → ℚ)) (blocks : List (List (ι → ℚ)))
    (hacc : acc ≠ []) (hb : ∀ b ∈ blocks, b ≠ []) :
    (blocks.map aggOf).foldl second_order_moments (aggOf acc)
      = aggOf (acc ++ blocks.flatten) := by
  induction blocks generalizing acc with
  | nil => simp
  | cons b bs ih =>
    simp only [List.map_cons, List.foldl_cons, List.flatten_cons]
    rw [second_order_moments_aggOf acc b hacc (hb b (List.mem_cons_self b bs)),
      ih (acc ++ b)
        (by intro h; rw [List.append_eq_nil] at h; exact hacc h.1)
        (fun x hx => hb x (List.mem_cons_of_mem b hx)),
      List.append_assoc]

/-- Claim C2: merged-aggregate correctness of the moment combiner.  For
every `t x n x m` observation array split into consecutive non-empty
blocks, folding the per-block aggregates (count = block length, mean =
elementwise block mean, sum_sq_dev = `sumofsquares` of the block) yields
an aggregate whose count is exactly the total number of observations and
whose mean and sum_sq_dev equal the direct computation over the full
concatenated observation set, exactly (arithmetic here is exact, in ℚ). -/
theorem fold_second_order_moments_merged (n m : Nat)
    (blocks : List (List (Fin n × Fin m → ℚ)))
    (hne : blocks ≠ []) (hb : ∀ b ∈ blocks, b ≠ []) :
    (fold_second_order_moments (blocks.map aggOf)).count = blocks.flatten.length
    ∧ (fold_second_order_moments (blocks.map aggOf)).mean = listMean blocks.flatten
    ∧ (fold_second_order_moments (blocks.map aggOf)).sum_sq_dev
        = sumofsquares blocks.flatten := by
  rcases blocks with _ | ⟨b, bs⟩
  · exact absurd rfl hne
  have h : fold_second_order_moments ((b :: bs).map aggOf)
      = aggOf ((b :: bs).flatten) := by
    simp only [List.map_cons, fold_second_order_moments, List.flatten_cons]
    exact foldl_aggOf b bs (hb b (List.mem_cons_self b bs))
      (fun x hx => hb x (List.mem_cons_of_mem b hx))
  rw [h]
  exact ⟨rfl, rfl, rfl⟩

/-- Witness for claim C2 at `n = m = 1` with the three observations
`1, 2, 4` split into blocks `[1]` and `[2, 4]`. -/
theorem fold_second_order_moments_merged_witness :
    (([[fun _ => (1 : ℚ)], [fun _ => (2 : ℚ), fun _ => (4 : ℚ)]]
        : List (List (Fin 1 × Fin 1 → ℚ))) ≠ []
      ∧ ∀ b ∈ ([[fun _ => (1 : ℚ)], [fun _ => (2 : ℚ), fun _ => (4 : ℚ)]]
          : List (List (Fin 1 × Fin 1 → ℚ))), b ≠ [])
    ∧ ((fold_second_order_moments
          (([[fun _ => (1 : ℚ)], [fun _ => (2 : ℚ), fun _ => (4 : ℚ)]]
            : List (List (Fin 1 × Fin 1 → ℚ))).map aggOf)).count
        = ([[fun _ => (1 : ℚ)], [fun _ => (2 : ℚ), fun _ => (4 : ℚ)]]
            : List (List (Fin 1 × Fin 1 → ℚ))).flatten.length
      ∧ (fold_second_order_moments
          (([[fun _ => (1 : ℚ)], [fun _ => (2 : ℚ), fun _ => (4 : ℚ)]]
            : List (List (Fin 1 × Fin 1 → ℚ))).map aggOf)).mean
        = listMean ([[fun _ => (1 : ℚ)], [fun _ => (2 : ℚ), fun _ => (4 : ℚ)]]
            : List (List (Fin 1 × Fin 1 → ℚ))).flatten
      ∧ (fold_second_order_moments
          (([[fun _ => (1 : ℚ)], [fun _ => (2 : ℚ), fun _ => (4 : ℚ)]]
            : List (List (Fin 1 × Fin 1 → ℚ))).map aggOf)).sum_sq_dev
        = sumofsquares ([[fun _ => (1 : ℚ)], [fun _ => (2 : ℚ), fun _ => (4 : ℚ)]]
            : List (List (Fin 1 × Fin 1 → ℚ))).flatten) :=
  ⟨⟨by simp, by intro b hb; fin_cases hb <;> simp⟩,
    fold_second_order_moments_merged 1 1 _ (by simp)
      (by intro b hb; fin_cases hb <;> simp)⟩

/-- Claim C6 (amended): the moment combine operator is associative (for
all aggregates); it is commutative whenever at least one operand is
non-empty or the operands are equal; and a count-0 aggregate is neutral:
combining it on the left returns the other operand unchanged, and
combining it on the right returns the other operand unchanged whenever
that operand is non-empty (the empty operand's mean is never read). -/
theorem second_order_moments_algebra (ι : Type) :
    (∀ a b c : MomentAgg ι,
        second_order_moments (second_order_moments a b) c
          = second_order_moments a (second_order_moments b c))
    ∧ (∀ a b : MomentAgg ι, (a.count ≠ 0 ∨ b.count ≠ 0 ∨ a = b) →
        second_order_moments a b = second_order_moments b a)
    ∧ (∀ a e : MomentAgg ι, e.count = 0 →
        second_order_moments e a = a
        ∧ (a.count ≠ 0 → second_order_moments a e = a)) := by
  refine ⟨?_, ?_, ?_⟩
  · intro a b c
    by_cases ha : a.count = 0
    · simp [second_order_moments, ha]
    by_cases hb : b.count = 0
    · simp [second_order_moments, ha, hb]
    by_cases hc : c.count = 0
    · have hab : a.count + b.count ≠ 0 := by omega
      simp [second_order_moments, ha, hb, hc, hab]
    have hab : a.count + b.count ≠ 0 := by omega
    have hbc : b.count + c.count ≠ 0 := by omega
    have hA : (0 : ℚ) < (a.count : ℚ) := by
      exact_mod_cast Nat.pos_of_ne_zero ha
    have hB : (0 : ℚ) < (b.count : ℚ) := by
      exact_mod_cast Nat.pos_of_ne_zero hb
    have hC : (0 : ℚ) < (c.count : ℚ) := by
      exact_mod_cast Nat.pos_of_ne_zero hc
    have h1 : (a.count : ℚ) + (b.count : ℚ) ≠ 0 := by positivity
    have h2 : (b.count : ℚ) + (c.count : ℚ) ≠ 0 := by positivity
    have h3 : (a.count : ℚ) + (b.count : ℚ) + (c.count : ℚ) ≠ 0 := by positivity
    simp only [second_order_moments, if_neg ha, if_neg hb, if_neg hc, if_neg hab,
      if_neg hbc]
    refine MomentAgg.ext ?_ ?_ ?_
    · simp [Nat.add_assoc]
    · funext i
      simp only []
      push_cast
      field_simp
      ring
    · funext i
      simp only []
      push_cast
      field_simp
      ring
  · intro a b h
    by_cases ha : a.count = 0
    · by_cases hb : b.count = 0
      · have hab : a = b := by
          rcases h with h | h | h
          · exact absurd ha h
          · exact absurd hb h
          · exact h
        rw [hab]
      · simp [second_order_moments, ha, hb]
    · by_cases hb : b.count = 0
      · simp [second_order_moments, ha, hb]
      · have hA : (0 : ℚ) < (a.count : ℚ) := by
          exact_mod_cast Nat.pos_of_ne_zero ha
        have hB : (0 : ℚ) < (b.count : ℚ) := by
          exact_mod_cast Nat.pos_of_ne_zero hb
        have h1 : (a.count : ℚ) + (b.count : ℚ) ≠ 0 := by positivity
        simp only [second_order_moments, if_neg ha, if_neg hb]
        refine MomentAgg.ext ?_ ?_ ?_
        · simp [Nat.add_comm]
        · funext i
          simp only []
          push_cast
          field_simp
          ring
        · funext i
          simp only []
          push_cast
          field_simp
          ring
  · intro a e he
    refine ⟨by simp [second_order_moments, he], fun ha => ?_⟩
    simp [second_order_moments, he, ha]

/-- Counterexample to claim C6 as stated: "combining any aggregate with
a count-0 aggregate returns the other operand unchanged" fails when both
operands are empty but differ in their (never-read) mean: combining the
count-0 aggregate with mean 1 with the empty aggregate `(0, 0, 0)` does
not return the first operand. -/
theorem second_order_moments_neutral_counterexample :
    second_order_moments (⟨0, fun _ => (1 : ℚ), fun _ => 0⟩ : MomentAgg Unit)
        ⟨0, fun _ => 0, fun _ => 0⟩
      ≠ (⟨0, fun _ => (1 : ℚ), fun _ => 0⟩ : MomentAgg Unit) := by
  have hred : second_order_moments (⟨0, fun _ => (1 : ℚ), fun _ => 0⟩ : MomentAgg Unit)
      ⟨0, fun _ => 0, fun _ => 0⟩
      = (⟨0, fun _ => 0, fun _ => 0⟩ : MomentAgg Unit) := rfl
  rw [hred]
  intro h
  have h2 := congrFun (congrArg MomentAgg.mean h) ()
  norm_num at h2

/-- Witness for claim C6 (amended): commutativity at the concrete
non-empty aggregates `(2, 1, 0)` and `(3, 2, 1)` over `Unit`. -/
theorem second_order_moments_algebra_witness :
    ((⟨2, fun _ => (1 : ℚ), fun _ => 0⟩ : MomentAgg Unit).count ≠ 0
      ∨ (⟨3, fun _ => (2 : ℚ), fun _ => 1⟩ : MomentAgg Unit).count ≠ 0
      ∨ (⟨2, fun _ => (1 : ℚ), fun _ => 0⟩ : MomentAgg Unit)
          = ⟨3, fun _ => (2 : ℚ), fun _ => 1⟩)
    ∧ second_order_moments (⟨2, fun _ => (1 : ℚ), fun _ => 0⟩ : MomentAgg Unit)
          ⟨3, fun _ => (2 : ℚ), fun _ => 1⟩
        = second_order_moments (⟨3, fun _ => (2 : ℚ), fun _ => 1⟩ : MomentAgg Unit)
          ⟨2, fun _ => (1 : ℚ), fun _ => 0⟩ :=
  ⟨Or.inl (by norm_num),
    (second_order_moments_algebra Unit).2.1 _ _ (Or.inl (by norm_num))⟩

/-- Claim C8: moment-aggregate invariant.  A per-block aggregate has
count equal to the block length (a non-negative integer), with count 0
exactly for the empty observation set; `sumofsquares` is coordinate-wise
non-negative; and combining two aggregates with non-negative sum_sq_dev
yields an aggregate with non-negative sum_sq_dev (the combine formula
adds the two sum_sq_dev vectors plus a non-negative correction term). -/
theorem moment_aggregate_invariant (ι : Type) :
    (∀ l : List (ι → ℚ), (aggOf l).count = l.length ∧ ((aggOf l).count = 0 ↔ l = []))
    ∧ (∀ (l : List (ι → ℚ)) (i : ι), 0 ≤ sumofsquares l i)
    ∧ (∀ a b : MomentAgg ι,
        (∀ i, 0 ≤ a.sum_sq_dev i) → (∀ i, 0 ≤ b.sum_sq_dev i) →
        ∀ i, 0 ≤ (second_order_moments a b).sum_sq_dev i) := by
  refine ⟨?_, ?_, ?_⟩
  · intro l
    exact ⟨rfl, by simp [aggOf, List.length_eq_zero]⟩
  · intro l i
    apply List.sum_nonneg
    intro x hx
    simp only [List.mem_map] at hx
    obtain ⟨y, _, rfl⟩ := hx
    positivity
  · intro a b ha hb i
    unfold second_order_moments
    by_cases h1 : a.count = 0
    · rw [if_pos h1]
      exact hb i
    · rw [if_neg h1]
      by_cases h2 : b.count = 0
      · rw [if_pos h2]
        exact ha i
      · rw [if_neg h2]
        dsimp only
        apply add_nonneg (add_nonneg (ha i) (hb i))
        apply mul_nonneg (sq_nonneg _)
        positivity

/-- Witness for claim C8: the combine-preservation component at the
concrete aggregates `(1, 0, 2)` and `(1, 1, 3)` over `Unit`. -/
theorem moment_aggregate_invariant_witness :
    (∀ i : Unit, 0 ≤ ((⟨1, fun _ => (0 : ℚ), fun _ => 2⟩
        : MomentAgg Unit)).sum_sq_dev i)
    ∧ (∀ i : Unit, 0 ≤ ((⟨1, fun _ => (1 : ℚ), fun _ => 3⟩
        : MomentAgg Unit)).sum_sq_dev i)
    ∧ (∀ i : Unit, 0 ≤ (second_order_moments
        (⟨1, fun _ => (0 : ℚ), fun _ => 2⟩ : MomentAgg Unit)
        ⟨1, fun _ => (1 : ℚ), fun _ => 3⟩).sum_sq_dev i) :=
  ⟨fun _ => by norm_num, fun _ => by norm_num,
    (moment_aggregate_invariant Unit).2.2 _ _
      (fun _ => by norm_num) (fun _ => by norm_num)⟩

/-! ### HydrogenBondAnalysis (`pmda/hbond_analysis.py`) -/

/-- Accumulator of `HydrogenBondAnalysis._reduce`: either the initial
(empty) Python list the fold starts from, or a numpy record array;
either way it carries an ordered list of record rows. -/
inductive HbAccum (ρ : Type) where
  | pylist (rows : List ρ)
  | arr (rows : List ρ)

/-- The ordered record rows an accumulator holds. -/
def HbAccum.rows {ρ : Type} : HbAccum ρ → List ρ
  | .pylist l => l
  | .arr l => l

namespace HydrogenBondAnalysis

/-- `HydrogenBondAnalysis._reduce(res, result_single_frame)` of
`pmda/hbond_analysis.py` (lines 571-581): when `res` is a Python `list`
of length 0 (the initial accumulator), `result_single_frame` (an array)
is returned itself; otherwise `np.append(res, result_single_frame,
axis=0)` concatenates the rows. -/
def _reduce {ρ : Type} (res : HbAccum ρ) (result_single_frame : List ρ) : HbAccum ρ :=
  match res with
  | .pylist l =>
      if l.length = 0 then .arr result_single_frame
      else .arr (l ++ result_single_frame)
  | .arr l => .arr (l ++ result_single_frame)

/-- Claim C9: the generic concatenate combiner.  `_reduce` returns the
single-frame result itself when the accumulator is the empty list and
otherwise the row-wise concatenation of the accumulator's rows followed
by the new rows; consequently left-folding `_reduce` over any ordered
sequence of per-frame record arrays, starting from the empty list,
yields exactly all records concatenated in fold order (the empty list is
a left identity and record order is preserved). -/
theorem reduce_concat (ρ : Type) :
    (∀ r : List ρ, _reduce (.pylist []) r = .arr r)
    ∧ (∀ (x : ρ) (l r : List ρ), _reduce (.pylist (x :: l)) r = .arr ((x :: l) ++ r))
    ∧ (∀ l r : List ρ, _reduce (.arr l) r = .arr (l ++ r))
    ∧ (∀ rs : List (List ρ), (rs.foldl _reduce (.pylist [])).rows = rs.flatten) := by
  have hstep : ∀ (acc : HbAccum ρ) (r : List ρ), (_reduce acc r).rows = acc.rows ++ r := by
    intro acc r
    rcases acc with l | l
    · by_cases h : l.length = 0
      · have h0 : l = [] := List.length_eq_zero.mp h
        subst h0
        simp [_reduce, HbAccum.rows]
      · simp [_reduce, h, HbAccum.rows]
    · simp [_reduce, HbAccum.rows]
  have hfold : ∀ (rs : List (List ρ)) (acc : HbAccum ρ),
      (rs.foldl _reduce acc).rows = acc.rows ++ rs.flatten := by
    intro rs
    induction rs with
    | nil => intro acc; simp
    | cons r rs ih =>
      intro acc
      rw [List.foldl_cons, ih, hstep, List.flatten_cons, List.append_assoc]
  refine ⟨fun r => rfl, fun x l r => rfl, fun l r => rfl, fun rs => ?_⟩
  simpa [HbAccum.rows] using hfold rs (.pylist [])

/-- `HydrogenBondAnalysis.count_by_time` of `pmda/hbond_analysis.py`
(lines 475-495): `np.unique` lists the distinct frame indices found in
column 0 of `self.hbonds` in ascending order together with their
multiplicities; each index is mapped to a position by subtracting
`self.start` and dividing by `self.step`; the counts are scattered into
an array of zeros shaped like `self.frames` (whose length is passed here
as `nframes`, the `k`-th analyzed frame being `start + k * step`). -/
def count_by_time (start step : Int) (nframes : Nat) (hbondFrames : List Int) :
    List Int :=
  (List.insertionSort (fun a b => a ≤ b) hbondFrames.dedup).foldl
    (fun counts v =>
      counts.set ((v - start) / step).toNat ((hbondFrames.count v : Nat) : Int))
    (List.replicate nframes 0)

end HydrogenBondAnalysis

lemma foldl_set_length (vs : List Int) (g : Int → Nat) (w : Int → Int)
    (init : List Int) :
    (vs.foldl (fun c v => c.set (g v) (w v)) init).length = init.length := by
  induction vs generalizing init with
  | nil => rfl
  | cons v vs ih => rw [List.foldl_cons, ih, List.length_set]

lemma foldl_set_getD_not_mem (vs : List Int) (g : Int → Nat) (w : Int → Int)
    (init : List Int) (k : Nat) (hk : ∀ v ∈ vs, g v ≠ k) :
    (vs.foldl (fun c v => c.set (g v) (w v)) init).getD k 0 = init.getD k 0 := by
  induction vs generalizing init with
  | nil => rfl
  | cons v vs ih =>
    rw [List.foldl_cons, ih _ (fun u hu => hk u (List.mem_cons_of_mem v hu)),
      List.getD_eq_getElem?_getD, List.getD_eq_getElem?_getD,
      List.getElem?_set_ne (hk v (List.mem_cons_self v vs))]

lemma foldl_set_getD_mem (vs : List Int) (g : Int → Nat) (w : Int → Int)
    (init : List Int) (v : Int) (hv : v ∈ vs)
    (hnd : (vs.map g).Nodup) (hlen : g v < init.length) :
    (vs.foldl (fun c v => c.set (g v) (w v)) init).getD (g v) 0 = w v := by
  induction vs generalizing init with
  | nil => cases hv
  | cons u vs ih =>
    have hnd' : g u ∉ vs.map g ∧ (vs.map g).Nodup :=
      List.nodup_cons.mp (by simpa [List.map_cons] using hnd)
    rw [List.foldl_cons]
    rcases List.mem_cons.mp hv with rfl | hv'
    · have hne : ∀ x ∈ vs, g x ≠ g v := by
        intro x hx hgx
        exact hnd'.1 (by rw [← hgx]; exact List.mem_map_of_mem g hx)
      rw [foldl_set_getD_not_mem vs g w _ _ hne, List.getD_eq_getElem?_getD]
      have hlt : g v < (init.set (g v) (w v)).length := by
        rw [List.length_set]; exact hlen
      rw [List.getElem?_eq_getElem hlt, List.getElem_set_self hlt]
      rfl
    · exact ih _ hv' hnd'.2 (by rw [List.length_set]; exact hlen)

/-- Claim C10: per-frame hydrogen-bond counting.  Provided every record
frame index is of the form `start + k * step` with `0 ≤ k <` the number
of analyzed frames, `count_by_time` returns an array of that length
whose `k`-th entry is the number of records with frame index
`start + k * step`; frames with no records get `0`. -/
theorem count_by_time_correct (start step : Int) (nframes : Nat) (hb : List Int)
    (hstep : 1 ≤ step)
    (hmem : ∀ v ∈ hb, ∃ k, k < nframes ∧ v = start + (k : Int) * step) :
    (HydrogenBondAnalysis.count_by_time start step nframes hb).length = nframes
    ∧ ∀ k, k < nframes →
        (HydrogenBondAnalysis.count_by_time start step nframes hb).getD k 0
          = ((hb.count (start + (k : Int) * step) : Nat) : Int) := by
  unfold HydrogenBondAnalysis.count_by_time
  have hperm : (List.insertionSort (fun a b => a ≤ b) hb.dedup).Perm hb.dedup :=
    List.perm_insertionSort _ _
  have hmemu : ∀ v : Int,
      v ∈ List.insertionSort (fun a b => a ≤ b) hb.dedup ↔ v ∈ hb := by
    intro v
    rw [hperm.mem_iff, List.mem_dedup]
  have hnodup : (List.insertionSort (fun a b => a ≤ b) hb.dedup).Nodup :=
    hperm.nodup_iff.mpr (List.nodup_dedup _)
  have hgval : ∀ k : Nat,
      (((start + (k : Int) * step) - start) / step).toNat = k := by
    intro k
    rw [add_sub_cancel_left, Int.mul_ediv_cancel _ (by omega : step ≠ 0)]
    exact Int.toNat_natCast k
  have hginj : ((List.insertionSort (fun a b => a ≤ b) hb.dedup).map
      (fun v : Int => ((v - start) / step).toNat)).Nodup := by
    apply hnodup.map_on
    intro x hx y hy hxy
    obtain ⟨kx, hkx, rfl⟩ := hmem x ((hmemu x).mp hx)
    obtain ⟨ky, hky, rfl⟩ := hmem y ((hmemu y).mp hy)
    rw [hgval kx, hgval ky] at hxy
    rw [hxy]
  constructor
  · rw [foldl_set_length _ (fun v => ((v - start) / step).toNat)
      (fun v => ((hb.count v : Nat) : Int)), List.length_replicate]
  · intro k hk
    by_cases hmem2 : (start + (k : Int) * step) ∈ hb
    · have hvin : (start + (k : Int) * step)
          ∈ List.insertionSort (fun a b => a ≤ b) hb.dedup := (hmemu _).mpr hmem2
      have h := foldl_set_getD_mem (List.insertionSort (fun a b => a ≤ b) hb.dedup)
        (fun v => ((v - start) / step).toNat)
        (fun v => ((hb.count v : Nat) : Int))
        (List.replicate nframes 0) _ hvin hginj
        (by dsimp only; rw [hgval k, List.length_replicate]; exact hk)
      dsimp only at h
      rw [hgval k] at h
      exact h
    · have hcnt : hb.count (start + (k : Int) * step) = 0 :=
        List.count_eq_zero.mpr hmem2
      rw [foldl_set_getD_not_mem _ (fun v => ((v - start) / step).toNat)
        (fun v => ((hb.count v : Nat) : Int)) _ k ?_]
      · rw [hcnt, List.getD_eq_getElem?_getD, List.getElem?_replicate, if_pos hk]
        rfl
      · intro v hv
        obtain ⟨kv, hkv, rfl⟩ := hmem v ((hmemu v).mp hv)
        dsimp only
        rw [hgval kv]
        intro hkk
        subst hkk
        exact hmem2 ((hmemu _).mp hv)

/-- Witness for claim C10 at `start = 0`, `step = 2`, three analyzed
frames `0, 2, 4`, and record frame indices `[0, 4, 4]` (counts
`1, 0, 2`). -/
theorem count_by_time_correct_witness :
    ((1 : Int) ≤ 2
      ∧ ∀ v ∈ ([0, 4, 4] : List Int), ∃ k, k < 3 ∧ v = 0 + (k : Int) * 2)
    ∧ ((HydrogenBondAnalysis.count_by_time 0 2 3 [0, 4, 4]).length = 3
      ∧ ∀ k, k < 3 →
          (HydrogenBondAnalysis.count_by_time 0 2 3 [0, 4, 4]).getD k 0
            = ((([0, 4, 4] : List Int).count (0 + (k : Int) * 2) : Nat) : Int)) :=
  ⟨⟨by norm_num, by
      intro v hv
      fin_cases hv
      · exact ⟨0, by norm_num⟩
      · exact ⟨2, by norm_num⟩
      · exact ⟨2, by norm_num⟩⟩,
    count_by_time_correct 0 2 3 [0, 4, 4] (by norm_num) (by
      intro v hv
      fin_cases hv
      · exact ⟨0, by norm_num⟩
      · exact ⟨2, by norm_num⟩
      · exact ⟨2, by norm_num⟩)⟩
